import Mathlib

/-!
Shallow embedding of the sismic statechart interpreter
(`src/sismic/interpreter.py`) together with theorems settling the
frozen claims about its specification.

The interpreter code is translated function by function.  The static
model (`sismic/model.py`) and the evaluator (`sismic/evaluator.py`) are
external collaborators that are not part of the shown source; their
query interface is modelled from the spec (section 6), as marked on each
definition.  Mutable interpreter state (active configuration, history
memory, event queue) is passed explicitly; calls into the evaluator are
additionally recorded in a trace so that theorems can speak about the
order and arguments of action executions.
-/

/-- An event: a name plus (opaque) data; the core only uses name
equality, so the embedding keeps the name. -/
structure Event where
  name : String
  deriving DecidableEq, Repr

/-- A transition of the statechart model, as consumed by the
interpreter: source name, optional target (`none` = internal
transition), optional triggering event, optional guard code, optional
action code. -/
structure Transition where
  from_state : String
  to_state : Option String
  event : Option Event
  guard : Option String
  action : Option String
  deriving DecidableEq, Repr

/-- The closed set of state variants of the model, with the fields the
interpreter reads: child names, declared first child of a compound
state, entry/exit action code, outgoing transitions, and for a history
pseudo-state its `deep` flag and fallback child.  History pseudo-states
carry no actions and no outgoing transitions and have no children. -/
inductive StateDef where
  | basic (on_entry on_exit : Option String) (transitions : List Transition)
  | final (on_entry on_exit : Option String)
  | compound (children : List String) (first : Option String)
      (on_entry on_exit : Option String) (transitions : List Transition)
  | orthogonal (children : List String)
      (on_entry on_exit : Option String) (transitions : List Transition)
  | history (deep : Bool) (fallback : String)
  deriving DecidableEq, Repr

/-- Child names of a state variant (empty for leaves and pseudo-states). -/
def StateDef.children : StateDef → List String
  | .compound cs _ _ _ _ => cs
  | .orthogonal cs _ _ _ => cs
  | _ => []

/-- Outgoing transitions of a state variant (the Python code reads them
with `getattr(..., 'transitions', [])`, defaulting to the empty list). -/
def StateDef.transitions : StateDef → List Transition
  | .basic _ _ ts => ts
  | .compound _ _ _ _ ts => ts
  | .orthogonal _ _ _ ts => ts
  | _ => []

/-- Entry action code of a state variant (the Python code guards this
with an `ActionStateMixin` check, which history pseudo-states fail). -/
def StateDef.on_entry : StateDef → Option String
  | .basic oe _ _ => oe
  | .final oe _ => oe
  | .compound _ _ oe _ _ => oe
  | .orthogonal _ oe _ _ => oe
  | .history _ _ => none

/-- Exit action code of a state variant. -/
def StateDef.on_exit : StateDef → Option String
  | .basic _ ox _ => ox
  | .final _ ox => ox
  | .compound _ _ _ ox _ => ox
  | .orthogonal _ _ ox _ => ox
  | .history _ _ => none

/-- The static statechart: the state tree as a name-keyed table, the
chart-level first state to enter, and the chart-level entry action. -/
structure StateChart where
  states : List (String × StateDef)
  chart_start : String
  on_entry : Option String
  deriving DecidableEq, Repr

/-- Table lookup, `statechart.states[name]`. -/
def StateChart.lookup (sc : StateChart) (n : String) : Option StateDef :=
  (sc.states.find? (fun p => p.1 = n)).map (fun p => p.2)

/-- Modelled from the spec: the hierarchy query provider lives in the
missing `sismic/model.py`; the parent of a state is the unique state
listing it among its children. -/
def parentOf (sc : StateChart) (n : String) : Option String :=
  (sc.states.find? (fun p => n ∈ p.2.children)).map (fun p => p.1)

/-- Fuel-bounded walk up the parent chain. -/
def ancestorsAux (sc : StateChart) : Nat → String → List String
  | 0, _ => []
  | fuel + 1, n =>
    match parentOf sc n with
    | none => []
    | some p => p :: ancestorsAux sc fuel p

/-- Modelled from the spec (section 6): `ancestors_for(name)`, the
proper ancestors of a state ordered root-ward (parent first), excluding
the state itself.  The number of states bounds the chain length. -/
def ancestors_for (sc : StateChart) (n : String) : List String :=
  ancestorsAux sc sc.states.length n

/-- Modelled from the spec (section 6): `depth_of(name)`; only relative
order of depths is consumed by the interpreter, so the chain length
serves as the depth. -/
def depth_of (sc : StateChart) (n : String) : Nat :=
  (ancestors_for sc n).length

/-- Fuel-bounded breadth-first frontier expansion. -/
def descendantsAux (sc : StateChart) : Nat → List String → List String
  | 0, _ => []
  | fuel + 1, frontier =>
    let next := frontier.flatMap (fun n => ((sc.lookup n).map StateDef.children).getD [])
    match next with
    | [] => []
    | _ :: _ => next ++ descendantsAux sc fuel next

/-- Modelled from the spec (section 6): `descendants_for(name)`, all
strict descendants of a state.  The spec leaves the order
"unspecified-but-consistent"; the model enumerates them breadth-first
(children before grandchildren), consistent with a queue-based
traversal of the tree. -/
def descendants_for (sc : StateChart) (n : String) : List String :=
  descendantsAux sc sc.states.length [n]

/-- Modelled from the spec: `least_common_ancestor(a, b)`.  The
glossary calls it the deepest common ancestor; the operational clauses
(section 4.2 "the last ancestor visited before reaching L", and the
interpreter's own comment that `last_before_lca` is a child of the LCA)
walk the proper ancestor chains, so the model returns the first common
element of the two proper-ancestor chains, or `none` when the states
share no ancestor. -/
def least_common_ancestor (sc : StateChart) (a b : String) : Option String :=
  (ancestors_for sc a).find? (fun x => x ∈ ancestors_for sc b)

/-- Modelled from the spec (section 6): `leaf_for(configuration)`, the
innermost active states: active states none of whose descendants is
active, enumerated in configuration order. -/
def leaf_for (sc : StateChart) (cfg : List String) : List String :=
  cfg.filter (fun s => (descendants_for sc s).all (fun d => ¬ d ∈ cfg))

/-- Modelled from the spec (section 6): the evaluator collaborator
(`sismic/evaluator.py` is not part of the shown source): guard
evaluation returns a boolean, action execution returns the events the
action raised.  Both receive the event context (`none` when absent). -/
structure Evaluator where
  evaluate_condition : String → Option Event → Bool
  execute_action : String → Option Event → List Event

/-- One recorded call to `Evaluator.execute_action`: the action code and
the event context it received. -/
structure ActionCall where
  code : String
  arg : Option Event
  deriving DecidableEq, Repr

/-- A micro step: the consumed event (if any), the fired transition (if
any; the Python constructor stores the falsy `[]` when there is none,
which the embedding renders as `none`), and the ordered lists of entered
and exited state names. -/
structure MicroStep where
  event : Option Event
  transition : Option Transition
  entered_states : List String
  exited_states : List String
  deriving DecidableEq, Repr

/-- A macro step: the micro steps of one external tick. -/
structure MacroStep where
  steps : List MicroStep
  deriving DecidableEq, Repr

/-- The `MacroStep.event` property as written in the source: the body
reads `self.steps[0].event` but only the `IndexError` handler contains a
`return`, so the computed value is dropped and the property evaluates to
`None` on every path. -/
def MacroStep.event (m : MacroStep) : Option Event :=
  match m.steps with
  | [] => none
  | step :: _ =>
    let _ := step.event
    none

/-- The mutable state owned by the interpreter: the active
configuration (a set of names, kept as a duplicate-free list in
insertion order), the history memory (a dict keyed by history
pseudo-state name), and the pending event queue (front at the head). -/
structure InterpState where
  configuration : List String
  memory : List (String × List String)
  events : List Event
  deriving DecidableEq, Repr

/-- Set difference on the configuration,
`self._configuration.difference(step.exited_states)`. -/
def configDiff (cfg removed : List String) : List String :=
  cfg.filter (fun s => ¬ s ∈ removed)

/-- Set union on the configuration,
`self._configuration.union(step.entered_states)`; keeps insertion order
and drops duplicates. -/
def configUnion (cfg added : List String) : List String :=
  added.foldl (fun acc a => if a ∈ acc then acc else acc ++ [a]) cfg

/-- Dict read, `self._memory.get(key)`. -/
def memGet (m : List (String × List String)) (k : String) : Option (List String) :=
  ((m.find? (fun p => p.1 = k)).map (fun p => p.2))

/-- Dict write, `self._memory[key] = v`: overwrite in place when the key
exists, append otherwise. -/
def memSet (m : List (String × List String)) (k : String) (v : List String) :
    List (String × List String) :=
  if (m.find? (fun p => p.1 = k)).isSome then
    m.map (fun p => if p.1 = k then (k, v) else p)
  else
    m ++ [(k, v)]

/-- `Interpreter.send`: internal events are prepended to the queue,
external events appended. -/
def send (s : InterpState) (e : Event) (internal : Bool) : InterpState :=
  if internal then
    { s with events := e :: s.events }
  else
    { s with events := s.events ++ [e] }

/-- Lexicographic comparison of names by code point, as Python compares
`str` values when sorting by source-state name. -/
def strLtAux : List Char → List Char → Bool
  | [], [] => false
  | [], _ :: _ => true
  | _ :: _, [] => false
  | a :: as, b :: bs =>
    if a.val.toNat < b.val.toNat then true
    else if b.val.toNat < a.val.toNat then false
    else strLtAux as bs

/-- Name order used by `sorted(key=lambda t: t.from_state, ...)`. -/
def strLt (a b : String) : Bool := strLtAux a.data b.data

/-- Stable insertion: `x` is placed before the first element that does
not strictly precede it, so earlier elements keep their place among
equals — the stability guarantee of Python's `sorted`. -/
def insertKeyed (lt : α → α → Bool) (x : α) : List α → List α
  | [] => [x]
  | y :: ys => if lt y x then y :: insertKeyed lt x ys else x :: y :: ys

/-- Stable sort by the strict precedence `lt`, modelling Python's
stable `sorted`. -/
def sortKeyed (lt : α → α → Bool) : List α → List α
  | [] => []
  | x :: xs => insertKeyed lt x (sortKeyed lt xs)

/-- Sort state names by ascending depth, `.sort(key=depth_of)`. -/
def sortByDepth (sc : StateChart) (l : List String) : List String :=
  sortKeyed (fun a b => depth_of sc a < depth_of sc b) l

/-- `self.send(event, internal=True)` once per raised event, in raising
order: each event is pushed onto the front of the queue individually. -/
def prependRaised (raised : List Event) (q : List Event) : List Event :=
  raised.foldl (fun acc e => e :: acc) q

/-- One iteration of the action loops of `_execute_step`: when the
state carries an action under `getter`, execute it, push each raised
event onto the queue front, and record the call. -/
def actionStep (sc : StateChart) (ev : Evaluator) (getter : StateDef → Option String)
    (acc : List Event × List ActionCall) (n : String) : List Event × List ActionCall :=
  match (sc.lookup n).bind getter with
  | some code =>
    (prependRaised (ev.execute_action code none) acc.1, acc.2 ++ [⟨code, none⟩])
  | none => acc

/-- The exit-action (resp. entry-action) loop of `_execute_step` over a
micro step's state list, threading the event queue and recording the
calls in order. -/
def runActions (sc : StateChart) (ev : Evaluator) (getter : StateDef → Option String)
    (ns : List String) (q : List Event) : List Event × List ActionCall :=
  ns.foldl (actionStep sc ev getter) (q, [])

/-- History capture for one exited state: when it is a compound state,
scan its children for history pseudo-states and store, for a deep one,
the active descendants of the exited state, and for a shallow one, its
active children.  The configuration is read before any removal.
(Python's arbitrary `set` iteration order for the captured names is
rendered as the descendants or children enumeration order; the source's
two assertions about captured sizes are not modelled.) -/
def captureForState (sc : StateChart) (cfg : List String)
    (m : List (String × List String)) (n : String) : List (String × List String) :=
  match sc.lookup n with
  | some (StateDef.compound cs _ _ _ _) =>
    cs.foldl
      (fun m c =>
        match sc.lookup c with
        | some (StateDef.history deep _) =>
          if deep then
            memSet m c ((descendants_for sc n).filter (fun d => d ∈ cfg))
          else
            memSet m c (cs.filter (fun d => d ∈ cfg))
        | _ => m)
      m
  | _ => m

/-- The history-capture loop of `_execute_step` over the exited
states. -/
def captureMemory (sc : StateChart) (cfg : List String)
    (m : List (String × List String)) (ns : List String) : List (String × List String) :=
  ns.foldl (captureForState sc cfg) m

/-- `Interpreter._execute_step`, applying a micro step: run the exit
actions in list order, prepending each event an action raises to the
queue one by one; capture history memory for every exited compound
state owning a history child (reading the configuration before any
removal); remove the exited names; run the transition's action with the
step's event as context — the source drops the events this call
returns; run the entry actions, again prepending raised events one by
one; finally add the entered names.  The second component records every
`execute_action` call in order. -/
def _execute_step (sc : StateChart) (ev : Evaluator) (s : InterpState)
    (step : MicroStep) : InterpState × List ActionCall :=
  let exits := runActions sc ev StateDef.on_exit step.exited_states s.events
  let mem1 := captureMemory sc s.configuration s.memory step.exited_states
  let cfg1 := configDiff s.configuration step.exited_states
  let transCalls :=
    match step.transition with
    | some t =>
      match t.action with
      | some code => [(⟨code, step.event⟩ : ActionCall)]
      | none => []
    | none => []
  let entries := runActions sc ev StateDef.on_entry step.entered_states exits.1
  let cfg2 := configUnion cfg1 step.entered_states
  (⟨cfg2, mem1, entries.1⟩, exits.2 ++ transCalls ++ entries.2)

/-- Scan the transitions declared on one state in the walk of
`Interpreter._select_transitions`: a transition is skipped unless its
event matches and its source is active; a passing guard marks the level
as found and appends the transition unless already collected. -/
def selectAtState (ev : Evaluator) (cfg : List String) (event : Option Event)
    (ts : List Transition) (acc : List Transition) : Bool × List Transition :=
  ts.foldl
    (fun (st : Bool × List Transition) t =>
      if t.event = event ∧ t.from_state ∈ cfg then
        if (t.guard.map (fun g => ev.evaluate_condition g event)).getD true then
          (true, if t ∈ st.2 then st.2 else st.2 ++ [t])
        else st
      else st)
    (false, acc)

/-- The upward walk of `Interpreter._select_transitions` from one leaf:
stop climbing as soon as a level yielded a transition. -/
def selectWalk (sc : StateChart) (ev : Evaluator) (cfg : List String)
    (event : Option Event) : List String → List Transition → List Transition
  | [], acc => acc
  | n :: rest, acc =>
    let here := selectAtState ev cfg event
      (((sc.lookup n).map StateDef.transitions).getD []) acc
    if here.1 then here.2 else selectWalk sc ev cfg event rest here.2

/-- `Interpreter._select_transitions`: for each innermost active state,
walk from the leaf through its ancestors collecting enabled transitions,
stopping the walk at the closest level that yields one. -/
def _select_transitions (sc : StateChart) (ev : Evaluator) (cfg : List String)
    (event : Option Event) : List Transition :=
  (leaf_for sc cfg).foldl
    (fun acc leaf => selectWalk sc ev cfg event (leaf :: ancestors_for sc leaf) acc)
    []

/-- The two failure modes of `Interpreter._sort_transitions`, matching
its two `raise` sites: a pair whose least common ancestor is not
orthogonal, and a transition whose target escapes its own branch. -/
inductive SortFault where
  | nonDeterminism
  | conflict
  deriving DecidableEq, Repr

/-- `itertools.combinations(transitions, 2)`: the unordered pairs in
list order. -/
def pairsOf : List α → List (α × α)
  | [] => []
  | x :: xs => xs.map (fun y => (x, y)) ++ pairsOf xs

/-- The `last_before_lca` computation: the last state visited on the
source's proper-ancestor chain before reaching the least common
ancestor (the source itself when its parent is that ancestor). -/
def lastBefore (sc : StateChart) (src : String) (lca : Option String) : String :=
  go src (ancestors_for sc src)
where
  go (cur : String) : List String → String
    | [] => cur
    | a :: rest => if some a = lca then cur else go a rest

/-- Does the target of `t` escape its branch below `lca`?  The source
checks `t.to_state not in [last_before_lca] + descendants`; a missing
target (`None`) is never in that list of names. -/
def escapesBranch (sc : StateChart) (t : Transition) (lca : Option String) : Bool :=
  let lb := lastBefore sc t.from_state lca
  match t.to_state with
  | none => true
  | some tgt => ¬ (tgt = lb ∨ tgt ∈ descendants_for sc lb)

/-- The two checks of `Interpreter._sort_transitions` for one pair, in
source order: the least common ancestor of the two sources must be an
orthogonal state, then neither member's target may escape its branch. -/
def checkPair (sc : StateChart) (t1 t2 : Transition) : Option SortFault :=
  match (least_common_ancestor sc t1.from_state t2.from_state).bind sc.lookup with
  | some (StateDef.orthogonal _ _ _ _) =>
    if escapesBranch sc t1 (least_common_ancestor sc t1.from_state t2.from_state) then
      some SortFault.conflict
    else if escapesBranch sc t2 (least_common_ancestor sc t1.from_state t2.from_state) then
      some SortFault.conflict
    else none
  | _ => some SortFault.nonDeterminism

/-- Run `checkPair` over the pairs in order, surfacing the first fault
as the raised error does. -/
def checkPairs (sc : StateChart) : List (Transition × Transition) → Option SortFault
  | [] => none
  | (t1, t2) :: rest =>
    match checkPair sc t1 t2 with
    | some f => some f
    | none => checkPairs sc rest

/-- `Interpreter._sort_transitions`: with more than one transition,
validate every pair, then sort by source name descending, stable-sort by
source depth ascending, and reverse; a single transition is returned
unchanged. -/
def _sort_transitions (sc : StateChart) (ts : List Transition) :
    Except SortFault (List Transition) :=
  if ts.length > 1 then
    match checkPairs sc (pairsOf ts) with
    | some f => Except.error f
    | none =>
      let byName := sortKeyed (fun a b => strLt b.from_state a.from_state) ts
      let byDepth := sortKeyed
        (fun a b => depth_of sc a.from_state < depth_of sc b.from_state) byName
      Except.ok byDepth.reverse
  else
    Except.ok ts

/-- `Interpreter._compute_transitions_steps`: one micro step per
transition.  A targetless transition yields empty entered/exited lists.
Otherwise the exited list is the reversed descendants of
`last_before_lca` filtered to the active ones, then that state itself if
active; the entered list is built by inserting each ancestor of the
target below the least common ancestor at the front, ending at the
target. -/
def _compute_transitions_steps (sc : StateChart) (cfg : List String)
    (event : Option Event) (ts : List Transition) : List MicroStep :=
  ts.map (fun t =>
    match t.to_state with
    | none => ⟨event, some t, [], []⟩
    | some tgt =>
      let lca := least_common_ancestor sc t.from_state tgt
      let lb := lastBefore sc t.from_state lca
      let exited :=
        ((descendants_for sc lb).reverse.filter (fun d => d ∈ cfg)) ++
          (if lb ∈ cfg then [lb] else [])
      let entered :=
        ((ancestors_for sc tgt).takeWhile (fun a => ¬ some a = lca)).reverse ++ [tgt]
      ⟨event, some t, entered, exited⟩)

/-- The scan inside `Interpreter._compute_stabilization_step` over the
current leaves: the first history leaf yields a step entering its
remembered states (or the fallback) sorted by ascending depth and
exiting the pseudo-state — the in-place `sort` mutates the stored
memory list, which the embedding renders by returning the updated
memory; the first orthogonal leaf yields a step entering all its
children; the first compound leaf with a declared first child yields a
step entering it; any other leaf is skipped. -/
def stabilizationFromLeaves (sc : StateChart) (mem : List (String × List String)) :
    List String → Option MicroStep × List (String × List String)
  | [] => (none, mem)
  | n :: rest =>
    match sc.lookup n with
    | some (StateDef.history _ fallback) =>
      match memGet mem n with
      | some stored =>
        let sorted := sortByDepth sc stored
        (some ⟨none, none, sorted, [n]⟩, memSet mem n sorted)
      | none =>
        (some ⟨none, none, sortByDepth sc [fallback], [n]⟩, mem)
    | some (StateDef.orthogonal cs _ _ _) =>
      (some ⟨none, none, cs, []⟩, mem)
    | some (StateDef.compound _ (some first) _ _ _) =>
      (some ⟨none, none, [first], []⟩, mem)
    | _ => stabilizationFromLeaves sc mem rest

/-- `Interpreter._compute_stabilization_step`: scan the leaves of the
current configuration for the first one needing completion. -/
def _compute_stabilization_step (sc : StateChart) (s : InterpState) :
    Option MicroStep × List (String × List String) :=
  stabilizationFromLeaves sc s.memory (leaf_for sc s.configuration)

/-- `Interpreter._stabilize`: compute and apply completion steps until
none remains.  The source loop has no termination guarantee, so the
embedding consumes fuel and reports `none` when a completed run would
need more than the given number of rounds. -/
def _stabilize (sc : StateChart) (ev : Evaluator) :
    Nat → InterpState → Option (List MicroStep × InterpState × List ActionCall)
  | 0, _ => none
  | fuel + 1, s =>
    match _compute_stabilization_step sc s with
    | (none, _) => some ([], s, [])
    | (some step, mem) =>
      let applied := _execute_step sc ev { s with memory := mem } step
      match _stabilize sc ev fuel applied.1 with
      | none => none
      | some (steps, sf, calls) =>
        some (step :: steps, sf, applied.2 ++ calls)

/-- The possible outcomes of one `execute_once` call: a completed call
(with its macro step or `None`, the state the interpreter object is left
in, and the recorded evaluator calls), an uncaught error from
`_sort_transitions` (the state is whatever the object holds when the
exception propagates), or stabilization fuel running out (the source
would still be looping). -/
inductive ExecResult where
  | ok (ms : Option MacroStep) (s : InterpState) (calls : List ActionCall)
  | fault (f : SortFault) (s : InterpState)
  | fuelOut
  deriving DecidableEq, Repr

/-- Application of the computed micro steps in order, threading the
interpreter state and accumulating the recorded evaluator calls. -/
def applySteps (sc : StateChart) (ev : Evaluator) (s : InterpState)
    (steps : List MicroStep) : InterpState × List ActionCall :=
  steps.foldl
    (fun (acc : InterpState × List ActionCall) st =>
      ((_execute_step sc ev acc.1 st).1, acc.2 ++ (_execute_step sc ev acc.1 st).2))
    (s, [])

/-- The tail of `Interpreter.execute_once` once transitions have been
selected: order them (an error propagates, leaving the state as is),
compute all micro steps from the current configuration, apply them in
order, then stabilize. -/
def runTransitions (sc : StateChart) (ev : Evaluator) (fuel : Nat)
    (s : InterpState) (event : Option Event) (ts : List Transition) : ExecResult :=
  match _sort_transitions sc ts with
  | Except.error f => ExecResult.fault f s
  | Except.ok sorted =>
    match _stabilize sc ev fuel
        (applySteps sc ev s (_compute_transitions_steps sc s.configuration event sorted)).1 with
    | none => ExecResult.fuelOut
    | some (stabs, sf, calls) =>
      ExecResult.ok
        (some ⟨_compute_transitions_steps sc s.configuration event sorted ++ stabs⟩) sf
        ((applySteps sc ev s (_compute_transitions_steps sc s.configuration event sorted)).2
          ++ calls)

/-- `Interpreter.execute_once`: eventless transitions take priority;
otherwise the front event is popped and its transitions selected — when
none match, the event is discarded and reported as a macro step holding
a single event-only micro step; with an empty queue nothing happens. -/
def execute_once (sc : StateChart) (ev : Evaluator) (fuel : Nat)
    (s : InterpState) : ExecResult :=
  match _select_transitions sc ev s.configuration none with
  | t :: ts => runTransitions sc ev fuel s none (t :: ts)
  | [] =>
    match s.events with
    | [] => ExecResult.ok none s []
    | e :: rest =>
      match _select_transitions sc ev s.configuration (some e) with
      | [] =>
        ExecResult.ok (some ⟨[⟨some e, none, [], []⟩]⟩) { s with events := rest } []
      | t :: ts => runTransitions sc ev fuel { s with events := rest } (some e) (t :: ts)

/-- The interpreter state constructed in `__init__` before `_start`
runs: empty configuration, empty history memory, empty queue. -/
def freshInterpState : InterpState := ⟨[], [], []⟩

/-- `Interpreter._start`: run the chart-level entry action (its raised
events are dropped by the source), apply a synthetic micro step entering
the chart's declared first state, then stabilize. -/
def _start (sc : StateChart) (ev : Evaluator) (fuel : Nat) :
    Option (List MicroStep × InterpState × List ActionCall) :=
  let startCalls :=
    match sc.on_entry with
    | some code =>
      let _ := ev.execute_action code none
      [(⟨code, none⟩ : ActionCall)]
    | none => []
  let step : MicroStep := ⟨none, none, [sc.chart_start], []⟩
  let applied := _execute_step sc ev freshInterpState step
  match _stabilize sc ev fuel applied.1 with
  | none => none
  | some (stabs, sf, calls) =>
    some (step :: stabs, sf, startCalls ++ applied.2 ++ calls)

/-- The events an action attached to a state (via `getter`) raises when
that state appears in a micro step's lists. -/
def raisedBy (sc : StateChart) (ev : Evaluator) (getter : StateDef → Option String)
    (n : String) : List Event :=
  match (sc.lookup n).bind getter with
  | some code => ev.execute_action code none
  | none => []

/-- Does this state own a history child (the condition under which
`_execute_step` writes to the history memory)? -/
def hasHistoryChild (sc : StateChart) (n : String) : Bool :=
  match sc.lookup n with
  | some (StateDef.compound cs _ _ _ _) =>
    cs.any (fun c =>
      match sc.lookup c with
      | some (StateDef.history _ _) => true
      | _ => false)
  | _ => false

/-- The least common ancestor of a pair's two sources, as checked by
`_sort_transitions`. -/
def pairLca (sc : StateChart) (pr : Transition × Transition) : Option String :=
  least_common_ancestor sc pr.1.from_state pr.2.from_state

/-- Is the pair's least common ancestor an orthogonal state? -/
def pairLcaOrthogonal (sc : StateChart) (pr : Transition × Transition) : Bool :=
  match (pairLca sc pr).bind sc.lookup with
  | some (StateDef.orthogonal _ _ _ _) => true
  | _ => false

/-- A leaf at which `_compute_stabilization_step` produces no completion
step: a basic state, a final state, or a compound state without a
declared first child. -/
def stableLeaf (sc : StateChart) (n : String) : Bool :=
  match sc.lookup n with
  | some (StateDef.basic _ _ _) => true
  | some (StateDef.final _ _) => true
  | some (StateDef.compound _ none _ _ _) => true
  | _ => false

/-- The configuration an `execute_once` outcome leaves the interpreter
object with. -/
def execConfig : ExecResult → List String
  | ExecResult.ok _ s _ => s.configuration
  | ExecResult.fault _ s => s.configuration
  | ExecResult.fuelOut => []

/-- Did the `execute_once` call complete without an error? -/
def execCompleted : ExecResult → Bool
  | ExecResult.ok _ _ _ => true
  | _ => false

/-- An evaluator whose guards all hold and whose actions raise no
events. -/
def evNull : Evaluator := ⟨fun _ _ => true, fun _ _ => []⟩

/-- Transition `s → b2` on event `e` of the chart below. -/
def trA : Transition := ⟨"s", some "b2", some ⟨"e"⟩, none, none⟩

/-- Transition `s → t1` on event `e` of the chart below. -/
def trB : Transition := ⟨"s", some "t1", some ⟨"e"⟩, none, none⟩

/-- A legal statechart: orthogonal root `P` with regions `s` and `r2`;
compound `s` (children `m`, `b2`, first child `m`) declares the two
transitions `trA` and `trB`; compound `m` has children `mA` (first) and
`t1`. -/
def chartA : StateChart :=
  ⟨[("P", StateDef.orthogonal ["s", "r2"] none none []),
    ("s", StateDef.compound ["m", "b2"] (some "m") none none [trA, trB]),
    ("m", StateDef.compound ["mA", "t1"] (some "mA") none none []),
    ("b2", StateDef.basic none none []),
    ("mA", StateDef.basic none none []),
    ("t1", StateDef.basic none none []),
    ("r2", StateDef.basic none none [])],
   "P", none⟩

/-- The interpreter state after `chartA`'s startup. -/
def chartA_started : InterpState :=
  match _start chartA evNull 10 with
  | some r => r.2.1
  | none => freshInterpState

/-- The outcome of `execute_once` on `chartA` after sending event `e`. -/
def chartA_afterE : ExecResult :=
  execute_once chartA evNull 10 (send chartA_started ⟨"e"⟩ false)

/-- Transition `ra → rb` on event `e` of the conflicting chart below. -/
def trC1 : Transition := ⟨"ra", some "rb", some ⟨"e"⟩, none, none⟩

/-- Transition `rb → ra` on event `e` of the conflicting chart below. -/
def trC2 : Transition := ⟨"rb", some "ra", some ⟨"e"⟩, none, none⟩

/-- Orthogonal root `Q` with basic regions `ra` and `rb`, each declaring
a transition into the other region (a cross-region conflict). -/
def chartB : StateChart :=
  ⟨[("Q", StateDef.orthogonal ["ra", "rb"] none none []),
    ("ra", StateDef.basic none none [trC1]),
    ("rb", StateDef.basic none none [trC2])],
   "Q", none⟩

/-- The interpreter state after `chartB`'s startup. -/
def chartB_started : InterpState :=
  match _start chartB evNull 10 with
  | some r => r.2.1
  | none => freshInterpState

/-- The outcome of `execute_once` on `chartB` after sending event `e`. -/
def chartB_afterE : ExecResult :=
  execute_once chartB evNull 10 (send chartB_started ⟨"e"⟩ false)

/-- Transition `x → y` on event `e` of the non-deterministic chart. -/
def trN1 : Transition := ⟨"x", some "y", some ⟨"e"⟩, none, none⟩

/-- Transition `x → x` on event `e` of the non-deterministic chart. -/
def trN2 : Transition := ⟨"x", some "x", some ⟨"e"⟩, none, none⟩

/-- Compound root `C` (first child `x`) whose child `x` declares two
transitions on the same event: their sources' least common ancestor is
the compound `C`, not an orthogonal state. -/
def chartN : StateChart :=
  ⟨[("C", StateDef.compound ["x", "y"] (some "x") none none []),
    ("x", StateDef.basic none none [trN1, trN2]),
    ("y", StateDef.basic none none [])],
   "C", none⟩

/-- The interpreter state after `chartN`'s startup. -/
def chartN_started : InterpState :=
  match _start chartN evNull 10 with
  | some r => r.2.1
  | none => freshInterpState

/-- The outcome of `execute_once` on `chartN` after sending event `e`. -/
def chartN_afterE : ExecResult :=
  execute_once chartN evNull 10 (send chartN_started ⟨"e"⟩ false)

/-- Transition `u → v` on event `e` carrying action `ac`. -/
def trAct : Transition := ⟨"u", some "v", some ⟨"e"⟩, none, some "ac"⟩

/-- Compound root `n` whose child `u` (with exit action `xc`) moves to
`v` (with entry action `nc`) through the action-carrying `trAct`. -/
def chartC3 : StateChart :=
  ⟨[("n", StateDef.compound ["u", "v"] (some "u") none none []),
    ("u", StateDef.basic none (some "xc") [trAct]),
    ("v", StateDef.basic (some "nc") none [])],
   "n", none⟩

/-- An evaluator whose action `ac` raises the event `ex` and whose other
actions raise nothing. -/
def evC3 : Evaluator :=
  ⟨fun _ _ => true, fun code _ => if code = "ac" then [⟨"ex"⟩] else []⟩

/-- The interpreter state after `chartC3`'s startup. -/
def chartC3_started : InterpState :=
  match _start chartC3 evC3 10 with
  | some r => r.2.1
  | none => freshInterpState

/-- The outcome of `execute_once` on `chartC3` after sending event `e`. -/
def chartC3_afterE : ExecResult :=
  execute_once chartC3 evC3 10 (send chartC3_started ⟨"e"⟩ false)

/-- Transition `u → v` on event `g`, without an action. -/
def trG : Transition := ⟨"u", some "v", some ⟨"g"⟩, none, none⟩

/-- Compound root `n` whose child `u` carries exit action `x2` and a
transition to `v` on event `g`. -/
def chartC4 : StateChart :=
  ⟨[("n", StateDef.compound ["u", "v"] (some "u") none none []),
    ("u", StateDef.basic none (some "x2") [trG]),
    ("v", StateDef.basic none none [])],
   "n", none⟩

/-- An evaluator whose action `x2` raises `e1` then `e2`, in that
order. -/
def evC4 : Evaluator :=
  ⟨fun _ _ => true, fun code _ => if code = "x2" then [⟨"e1"⟩, ⟨"e2"⟩] else []⟩

/-- The interpreter state after `chartC4`'s startup. -/
def chartC4_started : InterpState :=
  match _start chartC4 evC4 10 with
  | some r => r.2.1
  | none => freshInterpState

/-- The outcome of `execute_once` on `chartC4` with queue `[g, ext]`:
`g` triggers `trG`, `ext` stays queued behind whatever `x2` raises. -/
def chartC4_afterG : ExecResult :=
  execute_once chartC4 evC4 10
    (send (send chartC4_started ⟨"g"⟩ false) ⟨"ext"⟩ false)

/-- Self-loop `a → a` on event `e` in region `a`. -/
def trS1 : Transition := ⟨"a", some "a", some ⟨"e"⟩, none, none⟩

/-- Self-loop `b → b` on event `e` in region `b`. -/
def trS2 : Transition := ⟨"b", some "b", some ⟨"e"⟩, none, none⟩

/-- Orthogonal root `p5` with basic regions `a` and `b`: the two
self-loop transitions have sources of equal depth, exposing the name
tie-break of `_sort_transitions`. -/
def chartC5 : StateChart :=
  ⟨[("p5", StateDef.orthogonal ["a", "b"] none none []),
    ("a", StateDef.basic none none [trS1]),
    ("b", StateDef.basic none none [trS2])],
   "p5", none⟩

/-- Compound root `w0` (first child `w`) with basic child `w` and no
transitions at all: any event is unmatched. -/
def chartC7 : StateChart :=
  ⟨[("w0", StateDef.compound ["w"] (some "w") none none []),
    ("w", StateDef.basic none none [])],
   "w0", none⟩

/-- The interpreter state after `chartC7`'s startup. -/
def chartC7_started : InterpState :=
  match _start chartC7 evNull 10 with
  | some r => r.2.1
  | none => freshInterpState

/-- Compound root `a` owning a deep history child `h` and a compound
child `c` (with child `d`): used to exercise the history branch of
`_compute_stabilization_step`. -/
def chartC9 : StateChart :=
  ⟨[("a", StateDef.compound ["h", "c"] (some "c") none none []),
    ("h", StateDef.history true "c"),
    ("c", StateDef.compound ["d"] (some "d") none none []),
    ("d", StateDef.basic none none [])],
   "a", none⟩

/-- A mid-stabilization interpreter state of `chartC9`: the history
pseudo-state `h` is the active leaf, and its stored memory entry
`["d", "c"]` is not ordered by depth. -/
def chartC9_state : InterpState := ⟨["a", "h"], [("h", ["d", "c"])], []⟩

/-- The event queue an `execute_once` outcome leaves the interpreter
object with. -/
def execEvents : ExecResult → List Event
  | ExecResult.ok _ s _ => s.events
  | ExecResult.fault _ s => s.events
  | ExecResult.fuelOut => []

/-- `chartN`'s started state with event `e` queued. -/
def chartN_sent : InterpState := send chartN_started ⟨"e"⟩ false

/-- The state the interpreter object holds when the non-determinism
error of `chartN` propagates: the triggering event is already consumed. -/
def chartN_faultState : InterpState := ⟨["C", "x"], [], []⟩

/-- `chartB`'s started state with event `e` queued. -/
def chartB_sent : InterpState := send chartB_started ⟨"e"⟩ false

/-- Is this list a parent chain, i.e. does every element's ancestor
list equal the remainder of the list (as `ancestors_for` yields on a
well-formed tree)? -/
def isAncChain (sc : StateChart) : List String → Bool
  | [] => true
  | a :: rest => (decide (ancestors_for sc a = rest)) && isAncChain sc rest

/-- Equality of `Except` results is decidable componentwise (used to
evaluate `_sort_transitions` outcomes on concrete inputs). -/
instance {ε α : Type} [DecidableEq ε] [DecidableEq α] : DecidableEq (Except ε α) :=
  fun a b =>
    match a, b with
    | Except.error x, Except.error y =>
      if h : x = y then isTrue (by rw [h])
      else isFalse (fun hc => h (by injection hc))
    | Except.ok x, Except.ok y =>
      if h : x = y then isTrue (by rw [h])
      else isFalse (fun hc => h (by injection hc))
    | Except.error _, Except.ok _ => isFalse (fun hc => by injection hc)
    | Except.ok _, Except.error _ => isFalse (fun hc => by injection hc)

theorem strLtAux_asymm : ∀ x y : List Char, strLtAux x y = true → strLtAux y x = false
  | [], [] => by simp [strLtAux]
  | [], _ :: _ => by simp [strLtAux]
  | _ :: _, [] => by simp [strLtAux]
  | a :: as, b :: bs => by
    simp only [strLtAux]
    intro h
    by_cases h1 : a.val.toNat < b.val.toNat
    · have h2 : ¬ b.val.toNat < a.val.toNat := by omega
      simp [h1, h2]
    · by_cases h2 : b.val.toNat < a.val.toNat
      · simp [h1, h2] at h
      · simp only [h1, h2, if_false] at h ⊢
        exact strLtAux_asymm as bs h

theorem strLtAux_le_trans : ∀ x y z : List Char,
    strLtAux x y = false → strLtAux y z = false → strLtAux x z = false
  | [], [], [] => fun _ _ => rfl
  | [], _ :: _, _ => by simp [strLtAux]
  | [], [], _ :: _ => by intro _ h2; simp [strLtAux] at h2
  | _ :: _, _, [] => fun _ _ => rfl
  | a :: as, [], c :: cs => by intro _ h2; simp [strLtAux] at h2
  | a :: as, b :: bs, c :: cs => by
    intro h1 h2
    simp only [strLtAux] at h1 h2 ⊢
    by_cases hab : a.val.toNat < b.val.toNat
    · simp [hab] at h1
    · by_cases hbc : b.val.toNat < c.val.toNat
      · simp [hbc] at h2
      · by_cases hba : b.val.toNat < a.val.toNat
        · have hac : ¬ a.val.toNat < c.val.toNat := by omega
          have hca : c.val.toNat < a.val.toNat := by omega
          simp [hac, hca]
        · by_cases hcb : c.val.toNat < b.val.toNat
          · have hac : ¬ a.val.toNat < c.val.toNat := by omega
            have hca : c.val.toNat < a.val.toNat := by omega
            simp [hac, hca]
          · have hac : ¬ a.val.toNat < c.val.toNat := by omega
            have hca : ¬ c.val.toNat < a.val.toNat := by omega
            simp only [hab, hba, if_false] at h1
            simp only [hbc, hcb, if_false] at h2
            simp only [hac, hca, if_false]
            exact strLtAux_le_trans as bs cs h1 h2

theorem strLt_asymm (a b : String) : strLt a b = true → strLt b a = false :=
  strLtAux_asymm a.data b.data

theorem strLt_le_trans (a b c : String) :
    strLt a b = false → strLt b c = false → strLt a c = false :=
  strLtAux_le_trans a.data b.data c.data

theorem insertKeyed_mem {α : Type} (lt : α → α → Bool) (x : α) :
    ∀ (l : List α) (y : α), y ∈ insertKeyed lt x l ↔ y = x ∨ y ∈ l
  | [], y => by simp [insertKeyed]
  | z :: zs, y => by
    simp only [insertKeyed]
    by_cases h : lt z x = true
    · rw [if_pos h]
      simp only [List.mem_cons, insertKeyed_mem lt x zs y]
      tauto
    · rw [if_neg h]
      simp only [List.mem_cons]

theorem sortKeyed_mem {α : Type} (lt : α → α → Bool) :
    ∀ (l : List α) (y : α), y ∈ sortKeyed lt l ↔ y ∈ l
  | [], y => by simp [sortKeyed]
  | x :: xs, y => by
    simp [sortKeyed, insertKeyed_mem, sortKeyed_mem lt xs]

theorem insertKeyed_pairwise {α : Type} (lt : α → α → Bool) (S : α → α → Prop)
    (hasym : ∀ a b, lt a b = true → lt b a = false)
    (hneg : ∀ a b c, lt b a = false → lt c b = false → lt c a = false)
    (x : α) :
    ∀ m : List α,
      m.Pairwise (fun a b => lt b a = false ∧ (lt a b = false → S a b)) →
      (∀ y ∈ m, lt x y = false → lt y x = false → S x y) →
      (insertKeyed lt x m).Pairwise (fun a b => lt b a = false ∧ (lt a b = false → S a b))
  | [], _, _ => by simp [insertKeyed]
  | y :: ys, hm, hx => by
    simp only [insertKeyed]
    rcases List.pairwise_cons.mp hm with ⟨hy, hys⟩
    by_cases h : lt y x = true
    · rw [if_pos h]
      refine List.pairwise_cons.mpr ⟨?_, ?_⟩
      · intro z hz
        rcases (insertKeyed_mem lt x ys z).mp hz with rfl | hz'
        · exact ⟨hasym _ _ h, fun hc => absurd h (by simp [hc])⟩
        · exact hy z hz'
      · exact insertKeyed_pairwise lt S hasym hneg x ys hys
          (fun z hz => hx z (List.mem_cons_of_mem _ hz))
    · have h' : lt y x = false := by
        cases hyx : lt y x
        · rfl
        · exact absurd hyx h
      rw [if_neg h]
      refine List.pairwise_cons.mpr ⟨?_, hm⟩
      intro z hz
      rcases List.mem_cons.mp hz with rfl | hz'
      · exact ⟨h', fun hxy => hx z (List.mem_cons_self _ _) hxy h'⟩
      · have hzx : lt z x = false := hneg x y z h' (hy z hz').1
        exact ⟨hzx, fun hxz => hx z (List.mem_cons_of_mem _ hz') hxz hzx⟩

theorem sortKeyed_pairwise {α : Type} (lt : α → α → Bool) (S : α → α → Prop)
    (hasym : ∀ a b, lt a b = true → lt b a = false)
    (hneg : ∀ a b c, lt b a = false → lt c b = false → lt c a = false) :
    ∀ l : List α,
      l.Pairwise (fun a b => lt a b = false → lt b a = false → S a b) →
      (sortKeyed lt l).Pairwise (fun a b => lt b a = false ∧ (lt a b = false → S a b))
  | [], _ => by simp [sortKeyed]
  | x :: xs, hl => by
    rcases List.pairwise_cons.mp hl with ⟨hx, hxs⟩
    exact insertKeyed_pairwise lt S hasym hneg x (sortKeyed lt xs)
      (sortKeyed_pairwise lt S hasym hneg xs hxs)
      (fun y hy => hx y ((sortKeyed_mem lt xs y).mp hy))

theorem pairwise_vacuous {α : Type} (P : α → α → Prop) (hP : ∀ a b, P a b) :
    ∀ l : List α, l.Pairwise P
  | [] => List.Pairwise.nil
  | x :: xs => List.pairwise_cons.mpr ⟨fun y _ => hP x y, pairwise_vacuous P hP xs⟩

theorem prependRaised_eq : ∀ (raised q : List Event),
    prependRaised raised q = raised.reverse ++ q
  | [], q => rfl
  | e :: es, q => by
    have h1 : prependRaised (e :: es) q = prependRaised es (e :: q) := rfl
    rw [h1, prependRaised_eq es (e :: q)]
    simp

theorem actionFold_events (sc : StateChart) (ev : Evaluator)
    (getter : StateDef → Option String) :
    ∀ (ns : List String) (q : List Event) (cs : List ActionCall),
      (ns.foldl (actionStep sc ev getter) (q, cs)).1 =
        (ns.flatMap (raisedBy sc ev getter)).reverse ++ q
  | [], q, cs => by simp
  | n :: ns, q, cs => by
    rw [List.foldl_cons]
    cases h : (sc.lookup n).bind getter with
    | none =>
      have hstep : actionStep sc ev getter (q, cs) n = (q, cs) := by
        simp [actionStep, h]
      rw [hstep, actionFold_events sc ev getter ns q cs]
      simp [raisedBy, h]
    | some code =>
      have hstep : actionStep sc ev getter (q, cs) n =
          (prependRaised (ev.execute_action code none) q, cs ++ [⟨code, none⟩]) := by
        simp [actionStep, h]
      rw [hstep, actionFold_events sc ev getter ns _ _, prependRaised_eq]
      simp [raisedBy, h]

theorem runActions_events (sc : StateChart) (ev : Evaluator)
    (getter : StateDef → Option String) (ns : List String) (q : List Event) :
    (runActions sc ev getter ns q).1 =
      (ns.flatMap (raisedBy sc ev getter)).reverse ++ q :=
  actionFold_events sc ev getter ns q []

/-- Claim C4 (amended): the events raised by exit and entry actions
while applying a micro step all end up in front of every previously
queued event, but because each raised event is pushed onto the queue
front individually, their relative order in the queue is the reverse of
their emission order.  The transition's own action contributes nothing
(its raised events are dropped). -/
theorem execute_step_queue (sc : StateChart) (ev : Evaluator) (s : InterpState)
    (step : MicroStep) :
    ((_execute_step sc ev s step).1).events =
      (step.exited_states.flatMap (raisedBy sc ev StateDef.on_exit) ++
       step.entered_states.flatMap (raisedBy sc ev StateDef.on_entry)).reverse ++
        s.events := by
  show (runActions sc ev StateDef.on_entry step.entered_states
      (runActions sc ev StateDef.on_exit step.exited_states s.events).1).1 = _
  rw [runActions_events, runActions_events]
  simp

/-- Claim C4 (counterexample): on `chartC4`, exiting `u` runs action
`x2`, which raises `e1` then `e2`; the queue afterwards holds them
ahead of the external `ext` but in the order `e2, e1` — the reverse of
the emission order the claim asserts. -/
theorem raised_event_order_reversed :
    execEvents chartC4_afterG = [⟨"e2"⟩, ⟨"e1"⟩, ⟨"ext"⟩] ∧
    evC4.execute_action "x2" none = [⟨"e1"⟩, ⟨"e2"⟩] ∧
    ¬ execEvents chartC4_afterG = [⟨"e1"⟩, ⟨"e2"⟩, ⟨"ext"⟩] := by
  decide

theorem foldl_id_of {β γ : Type} (g : γ → β → γ) (p : β → Bool)
    (hg : ∀ acc b, p b = false → g acc b = acc) :
    ∀ (l : List β) (acc : γ), (∀ b ∈ l, p b = false) → l.foldl g acc = acc
  | [], _, _ => rfl
  | b :: l, acc, h => by
    rw [List.foldl_cons, hg acc b (h b (List.mem_cons_self _ _))]
    exact foldl_id_of g p hg l acc (fun x hx => h x (List.mem_cons_of_mem _ hx))

theorem captureForState_frame (sc : StateChart) (cfg : List String)
    (m : List (String × List String)) (n : String)
    (h : hasHistoryChild sc n = false) :
    captureForState sc cfg m n = m := by
  unfold captureForState
  unfold hasHistoryChild at h
  cases hl : sc.lookup n with
  | none => rfl
  | some sd =>
    cases sd with
    | basic a b c => rfl
    | final a b => rfl
    | orthogonal cs a b c => rfl
    | history a b => rfl
    | compound cs first a b c =>
      rw [hl] at h
      simp only [List.any_eq_false] at h
      refine foldl_id_of _
        (fun ch => match sc.lookup ch with
          | some (StateDef.history _ _) => true
          | _ => false) ?_ cs m ?_
      · intro acc ch hch
        cases hlc : sc.lookup ch with
        | none => rfl
        | some sdc =>
          cases sdc with
          | history d f => simp [hlc] at hch
          | basic a2 b2 c2 => rfl
          | final a2 b2 => rfl
          | compound cs2 f2 a2 b2 c2 => rfl
          | orthogonal cs2 a2 b2 c2 => rfl
      · intro x hx
        have hx2 := h x hx
        cases hres : (match sc.lookup x with
          | some (StateDef.history _ _) => true
          | _ => false) with
        | false => exact hres
        | true => exact absurd hres hx2

theorem captureMemory_frame (sc : StateChart) (cfg : List String)
    (m : List (String × List String)) (ns : List String)
    (h : ∀ n ∈ ns, hasHistoryChild sc n = false) :
    captureMemory sc cfg m ns = m :=
  foldl_id_of (captureForState sc cfg) (hasHistoryChild sc)
    (fun acc n hn => captureForState_frame sc cfg acc n hn) ns m h

theorem stabilizationFromLeaves_memory (sc : StateChart) :
    ∀ (mem : List (String × List String)) (leaves : List String),
      (stabilizationFromLeaves sc mem leaves).2 = mem ∨
      ∃ n stored, memGet mem n = some stored ∧
        (stabilizationFromLeaves sc mem leaves).2 = memSet mem n (sortByDepth sc stored)
  | _, [] => Or.inl rfl
  | mem, n :: rest => by
    simp only [stabilizationFromLeaves]
    cases hl : sc.lookup n with
    | none => exact stabilizationFromLeaves_memory sc mem rest
    | some sd =>
      cases sd with
      | basic a b c => exact stabilizationFromLeaves_memory sc mem rest
      | final a b => exact stabilizationFromLeaves_memory sc mem rest
      | orthogonal cs a b c => exact Or.inl rfl
      | compound cs first a b c =>
        cases first with
        | none => exact stabilizationFromLeaves_memory sc mem rest
        | some f => exact Or.inl rfl
      | history deep fallback =>
        cases hm : memGet mem n with
        | none => exact Or.inl rfl
        | some stored => exact Or.inr ⟨n, stored, hm, rfl⟩

theorem stabilizationFromLeaves_stable (sc : StateChart) :
    ∀ (mem : List (String × List String)) (leaves : List String),
      (∀ n ∈ leaves, stableLeaf sc n = true) →
      stabilizationFromLeaves sc mem leaves = (none, mem)
  | _, [], _ => rfl
  | mem, n :: rest, h => by
    have hn := h n (List.mem_cons_self _ _)
    have hrest : ∀ x ∈ rest, stableLeaf sc x = true :=
      fun x hx => h x (List.mem_cons_of_mem _ hx)
    simp only [stabilizationFromLeaves]
    unfold stableLeaf at hn
    cases hl : sc.lookup n with
    | none => exact stabilizationFromLeaves_stable sc mem rest hrest
    | some sd =>
      rw [hl] at hn
      cases sd with
      | basic a b c => exact stabilizationFromLeaves_stable sc mem rest hrest
      | final a b => exact stabilizationFromLeaves_stable sc mem rest hrest
      | orthogonal cs a b c => cases hn
      | history deep fallback => cases hn
      | compound cs first a b c =>
        cases first with
        | none => exact stabilizationFromLeaves_stable sc mem rest hrest
        | some f => cases hn

/-- Claim C9 (amended): applying a micro step leaves the history memory
unchanged unless some exited state is a compound state owning a history
child; and computing a stabilization step either leaves the memory
unchanged or — when the chosen leaf is a history pseudo-state with a
stored entry — replaces exactly that entry by its depth-sorted
permutation, the footprint of the source's in-place list sort. -/
theorem history_memory_frame (sc : StateChart) (ev : Evaluator) (s : InterpState)
    (step : MicroStep) (s' : InterpState)
    (h : ∀ n ∈ step.exited_states, hasHistoryChild sc n = false) :
    ((_execute_step sc ev s step).1).memory = s.memory ∧
    ((_compute_stabilization_step sc s').2 = s'.memory ∨
      ∃ n stored, memGet s'.memory n = some stored ∧
        (_compute_stabilization_step sc s').2 =
          memSet s'.memory n (sortByDepth sc stored)) := by
  constructor
  · show captureMemory sc s.configuration s.memory step.exited_states = s.memory
    exact captureMemory_frame sc s.configuration s.memory step.exited_states h
  · exact stabilizationFromLeaves_memory sc s'.memory (leaf_for sc s'.configuration)

/-- Claim C9 witness: the frame theorem applied to `chartC9`'s history
stabilization step (which exits only the history pseudo-state `h`, not
a compound state) at the mid-stabilization state. -/
theorem history_memory_frame_witness :
    (∀ n ∈ (⟨none, none, ["c", "d"], ["h"]⟩ : MicroStep).exited_states,
      hasHistoryChild chartC9 n = false) ∧
    (((_execute_step chartC9 evNull chartC9_state
        ⟨none, none, ["c", "d"], ["h"]⟩).1).memory = chartC9_state.memory ∧
     ((_compute_stabilization_step chartC9 chartC9_state).2 = chartC9_state.memory ∨
       ∃ n stored, memGet chartC9_state.memory n = some stored ∧
         (_compute_stabilization_step chartC9 chartC9_state).2 =
           memSet chartC9_state.memory n (sortByDepth chartC9 stored))) :=
  ⟨by decide,
   history_memory_frame chartC9 evNull chartC9_state
     ⟨none, none, ["c", "d"], ["h"]⟩ chartC9_state (by decide)⟩

/-- Claim C9 (counterexample): computing — not applying — a
stabilization step on `chartC9` at its active history leaf changes the
stored memory entry: the source sorts the stored list in place, so the
mapping goes from `h ↦ [d, c]` to `h ↦ [c, d]` without any compound
state being exited. -/
theorem stabilization_compute_mutates_memory :
    (_compute_stabilization_step chartC9 chartC9_state).2 = [("h", ["c", "d"])] ∧
    ¬ (_compute_stabilization_step chartC9 chartC9_state).2 = chartC9_state.memory := by
  decide

/-- Claim C8 (confirmed): on a configuration whose active leaves are all
basic states, final states, or compound states without a declared first
child, the stabilizer produces an empty step sequence and returns the
interpreter state unchanged (configuration, history memory, and event
queue included), and the single-step computation yields no step and the
untouched memory. -/
theorem stabilize_stable_noop (sc : StateChart) (ev : Evaluator) (fuel : Nat)
    (s : InterpState)
    (h : ∀ n ∈ leaf_for sc s.configuration, stableLeaf sc n = true)
    (hfuel : 0 < fuel) :
    _stabilize sc ev fuel s = some ([], s, []) ∧
    _compute_stabilization_step sc s = (none, s.memory) := by
  have hc : _compute_stabilization_step sc s = (none, s.memory) :=
    stabilizationFromLeaves_stable sc s.memory (leaf_for sc s.configuration) h
  refine ⟨?_, hc⟩
  cases fuel with
  | zero => exact absurd hfuel (Nat.lt_irrefl 0)
  | succ k =>
    unfold _stabilize
    rw [hc]

/-- Claim C8 witness: the stable startup configuration of `chartC7`
(leaves `w`, a basic state). -/
theorem stabilize_stable_noop_witness :
    (∀ n ∈ leaf_for chartC7 chartC7_started.configuration,
      stableLeaf chartC7 n = true) ∧ 0 < 1 ∧
    (_stabilize chartC7 evNull 1 chartC7_started = some ([], chartC7_started, []) ∧
     _compute_stabilization_step chartC7 chartC7_started =
       (none, chartC7_started.memory)) :=
  ⟨by decide, by decide,
   stabilize_stable_noop chartC7 evNull 1 chartC7_started (by decide) (by decide)⟩

theorem runTransitions_fault (sc : StateChart) (ev : Evaluator) (fuel : Nat)
    (s : InterpState) (oe : Option Event) (ts : List Transition)
    (f : SortFault) (s' : InterpState)
    (h : runTransitions sc ev fuel s oe ts = ExecResult.fault f s') :
    s' = s ∧ _sort_transitions sc ts = Except.error f := by
  unfold runTransitions at h
  split at h
  · next f0 heq =>
    injection h with h1 h2
    subst h1
    subst h2
    exact ⟨rfl, heq⟩
  · next sorted heq =>
    split at h
    · cases h
    · cases h

theorem sort_error_pairs (sc : StateChart) (ts : List Transition) (f : SortFault)
    (h : _sort_transitions sc ts = Except.error f) :
    1 < ts.length ∧ checkPairs sc (pairsOf ts) = some f := by
  unfold _sort_transitions at h
  by_cases hlen : ts.length > 1
  · rw [if_pos hlen] at h
    cases hc : checkPairs sc (pairsOf ts) with
    | none => rw [hc] at h; cases h
    | some f0 =>
      rw [hc] at h
      injection h with h1
      subst h1
      exact ⟨hlen, rfl⟩
  · rw [if_neg hlen] at h
    cases h

theorem checkPairs_mem (sc : StateChart) :
    ∀ (prs : List (Transition × Transition)) (f : SortFault),
      checkPairs sc prs = some f →
      ∃ pr ∈ prs, checkPair sc pr.1 pr.2 = some f
  | [], f, h => by simp [checkPairs] at h
  | (t1, t2) :: rest, f, h => by
    simp only [checkPairs] at h
    cases hc : checkPair sc t1 t2 with
    | some f0 =>
      rw [hc] at h
      injection h with h1
      subst h1
      exact ⟨(t1, t2), List.mem_cons_self _ _, hc⟩
    | none =>
      rw [hc] at h
      rcases checkPairs_mem sc rest f h with ⟨pr, hmem, hpr⟩
      exact ⟨pr, List.mem_cons_of_mem _ hmem, hpr⟩

theorem checkPair_cases (sc : StateChart) (t1 t2 : Transition) (f : SortFault)
    (h : checkPair sc t1 t2 = some f) :
    (f = SortFault.nonDeterminism → pairLcaOrthogonal sc (t1, t2) = false) ∧
    (f = SortFault.conflict → pairLcaOrthogonal sc (t1, t2) = true ∧
      (escapesBranch sc t1 (pairLca sc (t1, t2)) = true ∨
       escapesBranch sc t2 (pairLca sc (t1, t2)) = true)) := by
  unfold checkPair at h
  unfold pairLcaOrthogonal pairLca
  cases hl : (least_common_ancestor sc t1.from_state t2.from_state).bind sc.lookup with
  | none =>
    rw [hl] at h
    injection h with h1
    subst h1
    exact ⟨fun _ => rfl, fun hc => nomatch hc⟩
  | some sd =>
    rw [hl] at h
    cases sd with
    | orthogonal cs a b c =>
      by_cases he1 :
          escapesBranch sc t1 (least_common_ancestor sc t1.from_state t2.from_state) = true
      · rw [if_pos he1] at h
        injection h with h1
        subst h1
        exact ⟨(fun hc => nomatch hc), (fun _ => ⟨rfl, Or.inl he1⟩)⟩
      · rw [if_neg he1] at h
        by_cases he2 :
            escapesBranch sc t2 (least_common_ancestor sc t1.from_state t2.from_state) = true
        · rw [if_pos he2] at h
          injection h with h1
          subst h1
          exact ⟨(fun hc => nomatch hc), (fun _ => ⟨rfl, Or.inr he2⟩)⟩
        · rw [if_neg he2] at h
          cases h
    | basic a b c =>
      injection h with h1
      subst h1
      exact ⟨fun _ => rfl, fun hc => nomatch hc⟩
    | final a b =>
      injection h with h1
      subst h1
      exact ⟨fun _ => rfl, fun hc => nomatch hc⟩
    | compound cs first a b c =>
      injection h with h1
      subst h1
      exact ⟨fun _ => rfl, fun hc => nomatch hc⟩
    | history d fb =>
      injection h with h1
      subst h1
      exact ⟨fun _ => rfl, fun hc => nomatch hc⟩

/-- Claim C2 (amended): when `execute_once` surfaces an ordering error,
the error is a non-determinism fault only if some selected pair's least
common ancestor is not an orthogonal state, and a conflict fault only if
such a pair has an orthogonal least common ancestor and a member whose
target escapes its branch; no micro step has been applied, so the
configuration and the history memory are exactly as before the call —
but the event queue is unchanged only for an eventless batch: a popped
triggering event stays consumed. -/
theorem execute_once_fault_state (sc : StateChart) (ev : Evaluator) (fuel : Nat)
    (s : InterpState) (f : SortFault) (s' : InterpState)
    (h : execute_once sc ev fuel s = ExecResult.fault f s') :
    s'.configuration = s.configuration ∧ s'.memory = s.memory ∧
    (s'.events = s.events ∨ ∃ e, s.events = e :: s'.events) ∧
    ∃ ts, (ts = _select_transitions sc ev s.configuration none ∨
           ∃ e, ts = _select_transitions sc ev s.configuration (some e)) ∧
      _sort_transitions sc ts = Except.error f ∧
      ∃ pr, pr ∈ pairsOf ts ∧ checkPair sc pr.1 pr.2 = some f ∧
        (f = SortFault.nonDeterminism → pairLcaOrthogonal sc pr = false) ∧
        (f = SortFault.conflict → pairLcaOrthogonal sc pr = true ∧
          (escapesBranch sc pr.1 (pairLca sc pr) = true ∨
           escapesBranch sc pr.2 (pairLca sc pr) = true)) := by
  have main : ∀ (s0 : InterpState) (oe : Option Event) (ts : List Transition),
      runTransitions sc ev fuel s0 oe ts = ExecResult.fault f s' →
      s' = s0 ∧ _sort_transitions sc ts = Except.error f ∧
      ∃ pr, pr ∈ pairsOf ts ∧ checkPair sc pr.1 pr.2 = some f ∧
        (f = SortFault.nonDeterminism → pairLcaOrthogonal sc pr = false) ∧
        (f = SortFault.conflict → pairLcaOrthogonal sc pr = true ∧
          (escapesBranch sc pr.1 (pairLca sc pr) = true ∨
           escapesBranch sc pr.2 (pairLca sc pr) = true)) := by
    intro s0 oe ts hrt
    obtain ⟨hs, hsort⟩ := runTransitions_fault sc ev fuel s0 oe ts f s' hrt
    obtain ⟨_, hcp⟩ := sort_error_pairs sc ts f hsort
    obtain ⟨pr, hmem, hpr⟩ := checkPairs_mem sc (pairsOf ts) f hcp
    obtain ⟨p1, p2⟩ := pr
    obtain ⟨h1, h2⟩ := checkPair_cases sc p1 p2 f hpr
    exact ⟨hs, hsort, (p1, p2), hmem, hpr, h1, h2⟩
  unfold execute_once at h
  split at h
  · next t ts0 heq =>
    obtain ⟨hs, hsort, hrest⟩ := main s none (t :: ts0) h
    subst hs
    exact ⟨rfl, rfl, Or.inl rfl, t :: ts0, Or.inl heq.symm, hsort, hrest⟩
  · next heq =>
    split at h
    · next hev => cases h
    · next e rest hev =>
      split at h
      · next hsel2 => cases h
      · next t ts0 hsel2 =>
        obtain ⟨hs, hsort, hrest⟩ := main { s with events := rest } (some e) (t :: ts0) h
        subst hs
        exact ⟨rfl, rfl, Or.inr ⟨e, hev⟩, t :: ts0, Or.inr ⟨e, hsel2.symm⟩, hsort, hrest⟩

/-- Claim C2 (witness): the amended fault theorem applied to `chartN`,
whose two same-source transitions on event `e` share the non-orthogonal
least common ancestor `C`. -/
theorem execute_once_fault_state_witness :
    execute_once chartN evNull 10 chartN_sent =
      ExecResult.fault SortFault.nonDeterminism chartN_faultState ∧
    (chartN_faultState.configuration = chartN_sent.configuration ∧
     chartN_faultState.memory = chartN_sent.memory ∧
     (chartN_faultState.events = chartN_sent.events ∨
       ∃ e, chartN_sent.events = e :: chartN_faultState.events) ∧
     ∃ ts, (ts = _select_transitions chartN evNull chartN_sent.configuration none ∨
            ∃ e, ts = _select_transitions chartN evNull chartN_sent.configuration (some e)) ∧
       _sort_transitions chartN ts = Except.error SortFault.nonDeterminism ∧
       ∃ pr, pr ∈ pairsOf ts ∧
         checkPair chartN pr.1 pr.2 = some SortFault.nonDeterminism ∧
         (SortFault.nonDeterminism = SortFault.nonDeterminism →
           pairLcaOrthogonal chartN pr = false) ∧
         (SortFault.nonDeterminism = SortFault.conflict →
           pairLcaOrthogonal chartN pr = true ∧
           (escapesBranch chartN pr.1 (pairLca chartN pr) = true ∨
            escapesBranch chartN pr.2 (pairLca chartN pr) = true))) :=
  ⟨(by decide),
   execute_once_fault_state chartN evNull 10 chartN_sent
     SortFault.nonDeterminism chartN_faultState (by decide)⟩

/-- Claim C2 (counterexample): on `chartB` the conflicting pair is
detected and no micro step is applied, but the event queue is NOT
exactly as before the call: the triggering event `e` was popped before
ordering and is not restored when the error propagates. -/
theorem conflict_fault_consumes_event :
    chartB_afterE = ExecResult.fault SortFault.conflict ⟨["Q", "ra", "rb"], [], []⟩ ∧
    chartB_sent.events = [⟨"e"⟩] ∧
    ¬ execEvents chartB_afterE = chartB_sent.events := by decide

/-- Claim C7 (confirmed): when eventless selection is empty and the
popped front event matches no transition, `execute_once` raises no
error and returns a macro step holding exactly one micro step that
carries that event, no transition and empty entered/exited lists; the
configuration and the history memory are unchanged (only the queue
loses its front event). -/
theorem unmatched_event_noop (sc : StateChart) (ev : Evaluator) (fuel : Nat)
    (s : InterpState) (e : Event) (rest : List Event)
    (h1 : _select_transitions sc ev s.configuration none = [])
    (h2 : s.events = e :: rest)
    (h3 : _select_transitions sc ev s.configuration (some e) = []) :
    execute_once sc ev fuel s =
      ExecResult.ok (some ⟨[⟨some e, none, [], []⟩]⟩) { s with events := rest } [] ∧
    ({ s with events := rest } : InterpState).configuration = s.configuration ∧
    ({ s with events := rest } : InterpState).memory = s.memory := by
  refine ⟨?_, rfl, rfl⟩
  simp only [execute_once, h1, h2, h3]

/-- Claim C7 (witness): sending the unmatched event `X` to the started
`chartC7`. -/
theorem unmatched_event_noop_witness :
    _select_transitions chartC7 evNull
      (send chartC7_started ⟨"X"⟩ false).configuration none = [] ∧
    (send chartC7_started ⟨"X"⟩ false).events = [⟨"X"⟩] ∧
    _select_transitions chartC7 evNull
      (send chartC7_started ⟨"X"⟩ false).configuration (some ⟨"X"⟩) = [] ∧
    (execute_once chartC7 evNull 5 (send chartC7_started ⟨"X"⟩ false) =
      ExecResult.ok (some ⟨[⟨some ⟨"X"⟩, none, [], []⟩]⟩)
        { send chartC7_started ⟨"X"⟩ false with events := [] } [] ∧
     ({ send chartC7_started ⟨"X"⟩ false with events := [] } : InterpState).configuration =
       (send chartC7_started ⟨"X"⟩ false).configuration ∧
     ({ send chartC7_started ⟨"X"⟩ false with events := [] } : InterpState).memory =
       (send chartC7_started ⟨"X"⟩ false).memory) :=
  ⟨(by decide), (by decide), (by decide),
   unmatched_event_noop chartC7 evNull 5 (send chartC7_started ⟨"X"⟩ false) ⟨"X"⟩ []
     (by decide) (by decide) (by decide)⟩

/-- Claim C10 (confirmed): the `MacroStep.event` property returns `None`
for every macro step — the source computes `self.steps[0].event` but
never returns it, so even a macro step whose first micro step carries a
consumed event yields `None`. -/
theorem macroStep_event_none (m : MacroStep) : m.event = none := by
  unfold MacroStep.event
  split
  · rfl
  · rfl

/-- Claim C1 (refuted on the code): a reachable macro-step boundary
whose configuration is not closed under ancestors.  On `chartA`, after
startup and one completed `execute_once` for event `e`, the state `t1`
is active while its proper ancestor `m` (per the hierarchy) is not: the
two same-source transitions of `s` pass both ordering checks (their
sources' least common ancestor is the orthogonal grandparent `P`), and
applying their precomputed micro steps in order orphans `t1`. -/
theorem execute_once_breaks_ancestor_closure :
    execCompleted chartA_afterE = true ∧
    "t1" ∈ execConfig chartA_afterE ∧
    "m" ∈ ancestors_for chartA "t1" ∧
    ¬ "m" ∈ execConfig chartA_afterE := by decide

/-- Claim C3 (code divergence): applying the micro step of `chartC3`
executes the exit action `xc`, then the transition action `ac` with the
triggering event `e` as context, then the entry action `nc` — but the
event `ex` raised by `ac` is dropped: the final queue is empty even
though the evaluator returned `[ex]` for that call. -/
theorem transition_action_events_dropped :
    chartC3_afterE = ExecResult.ok
      (some ⟨[⟨some ⟨"e"⟩, some trAct, ["v"], ["u"]⟩]⟩)
      ⟨["n", "v"], [], []⟩
      [⟨"xc", none⟩, ⟨"ac", some ⟨"e"⟩⟩, ⟨"nc", none⟩] ∧
    evC3.execute_action "ac" (some ⟨"e"⟩) = [⟨"ex"⟩] := by decide

/-- Claim C5 (counterexample): on `chartC5` the two conflict-free
transitions have sources `a` and `b` of equal depth; the returned order
is `[a-transition, b-transition]`, i.e. the tie is broken by source
name ASCENDING, not descending as the claim states. -/
theorem equal_depth_tie_is_name_ascending :
    _sort_transitions chartC5 [trS1, trS2] = Except.ok [trS1, trS2] ∧
    depth_of chartC5 trS1.from_state = depth_of chartC5 trS2.from_state ∧
    strLt trS1.from_state trS2.from_state = true ∧
    ¬ ([trS1, trS2] : List Transition).Pairwise (fun t1 t2 =>
        depth_of chartC5 t2.from_state < depth_of chartC5 t1.from_state ∨
        (depth_of chartC5 t1.from_state = depth_of chartC5 t2.from_state ∧
         strLt t1.from_state t2.from_state = false)) := by decide

/-- Claim C5 (amended): for a validated set of more than one transition,
`_sort_transitions` returns exactly the list obtained by sorting by
source name descending, stable-sorting by source depth ascending, and
reversing; the result therefore runs deeper-sourced transitions first,
and among equal-depth sources the tie-break is source name ASCENDING
(the final reversal flips the name-descending pre-order). -/
theorem sorted_transitions_order (sc : StateChart) (ts sorted : List Transition)
    (hlen : 1 < ts.length)
    (h : _sort_transitions sc ts = Except.ok sorted) :
    sorted =
      (sortKeyed
        (fun a b => decide (depth_of sc a.from_state < depth_of sc b.from_state))
        (sortKeyed (fun a b => strLt b.from_state a.from_state) ts)).reverse ∧
    sorted.Pairwise (fun t1 t2 =>
      depth_of sc t2.from_state < depth_of sc t1.from_state ∨
      (depth_of sc t1.from_state = depth_of sc t2.from_state ∧
       strLt t2.from_state t1.from_state = false)) := by
  unfold _sort_transitions at h
  rw [if_pos hlen] at h
  cases hc : checkPairs sc (pairsOf ts) with
  | some f => rw [hc] at h; cases h
  | none =>
    rw [hc] at h
    injection h with h1
    subst h1
    refine ⟨rfl, ?_⟩
    have hasymN : ∀ a b : Transition,
        (fun a b => strLt b.from_state a.from_state) a b = true →
        (fun a b => strLt b.from_state a.from_state) b a = false :=
      fun a b hab => strLt_asymm b.from_state a.from_state hab
    have hnegN : ∀ a b c : Transition,
        (fun a b => strLt b.from_state a.from_state) b a = false →
        (fun a b => strLt b.from_state a.from_state) c b = false →
        (fun a b => strLt b.from_state a.from_state) c a = false :=
      fun a b c h1 h2 => strLt_le_trans a.from_state b.from_state c.from_state h1 h2
    have step1 := sortKeyed_pairwise
      (fun a b : Transition => strLt b.from_state a.from_state)
      (fun _ _ => True) hasymN hnegN ts
      (pairwise_vacuous _ (fun _ _ _ _ => trivial) ts)
    have step1' : (sortKeyed (fun a b : Transition => strLt b.from_state a.from_state)
        ts).Pairwise (fun a b =>
          decide (depth_of sc a.from_state < depth_of sc b.from_state) = false →
          decide (depth_of sc b.from_state < depth_of sc a.from_state) = false →
          strLt a.from_state b.from_state = false) :=
      step1.imp (fun hab _ _ => hab.1)
    have hasymD : ∀ a b : Transition,
        (fun a b : Transition =>
          decide (depth_of sc a.from_state < depth_of sc b.from_state)) a b = true →
        (fun a b : Transition =>
          decide (depth_of sc a.from_state < depth_of sc b.from_state)) b a = false := by
      intro a b hab
      simp only [decide_eq_true_eq] at hab
      simp only [decide_eq_false_iff_not]
      omega
    have hnegD : ∀ a b c : Transition,
        (fun a b : Transition =>
          decide (depth_of sc a.from_state < depth_of sc b.from_state)) b a = false →
        (fun a b : Transition =>
          decide (depth_of sc a.from_state < depth_of sc b.from_state)) c b = false →
        (fun a b : Transition =>
          decide (depth_of sc a.from_state < depth_of sc b.from_state)) c a = false := by
      intro a b c h1 h2
      simp only [decide_eq_false_iff_not] at h1 h2
      simp only [decide_eq_false_iff_not]
      omega
    have step2 := sortKeyed_pairwise
      (fun a b : Transition =>
        decide (depth_of sc a.from_state < depth_of sc b.from_state))
      (fun a b : Transition => strLt a.from_state b.from_state = false)
      hasymD hnegD
      (sortKeyed (fun a b : Transition => strLt b.from_state a.from_state) ts)
      step1'
    have key : (sortKeyed
        (fun a b : Transition =>
          decide (depth_of sc a.from_state < depth_of sc b.from_state))
        (sortKeyed (fun a b : Transition => strLt b.from_state a.from_state)
          ts)).Pairwise (fun a b =>
            depth_of sc a.from_state < depth_of sc b.from_state ∨
            (depth_of sc b.from_state = depth_of sc a.from_state ∧
             strLt a.from_state b.from_state = false)) := by
      refine step2.imp ?_
      intro a b hab
      rcases hab with ⟨h1, h2⟩
      simp only [decide_eq_false_iff_not] at h1
      by_cases hd : depth_of sc a.from_state < depth_of sc b.from_state
      · exact Or.inl hd
      · have heq : depth_of sc b.from_state = depth_of sc a.from_state := by omega
        exact Or.inr ⟨heq, h2 (by simp only [decide_eq_false_iff_not]; omega)⟩
    exact List.pairwise_reverse.mpr key

/-- Claim C5 (witness): the order theorem applied to the two equal-depth
transitions of `chartC5`. -/
theorem sorted_transitions_order_witness :
    1 < ([trS1, trS2] : List Transition).length ∧
    _sort_transitions chartC5 [trS1, trS2] = Except.ok [trS1, trS2] ∧
    (([trS1, trS2] : List Transition) =
      (sortKeyed
        (fun a b => decide (depth_of chartC5 a.from_state < depth_of chartC5 b.from_state))
        (sortKeyed (fun a b => strLt b.from_state a.from_state) [trS1, trS2])).reverse ∧
     ([trS1, trS2] : List Transition).Pairwise (fun t1 t2 =>
       depth_of chartC5 t2.from_state < depth_of chartC5 t1.from_state ∨
       (depth_of chartC5 t1.from_state = depth_of chartC5 t2.from_state ∧
        strLt t2.from_state t1.from_state = false))) :=
  ⟨(by decide), (by decide),
   sorted_transitions_order chartC5 [trS1, trS2] [trS1, trS2] (by decide) (by decide)⟩

theorem isAncChain_cons (sc : StateChart) (a : String) (rest : List String)
    (h : isAncChain sc (a :: rest) = true) :
    ancestors_for sc a = rest ∧ isAncChain sc rest = true := by
  simp only [isAncChain, Bool.and_eq_true, decide_eq_true_eq] at h
  exact h

theorem chain_anc_sub (sc : StateChart) :
    ∀ (ch : List String), isAncChain sc ch = true →
      ∀ x, x ∈ ch → ∀ y, y ∈ ancestors_for sc x → y ∈ ch
  | [], _, x, hx, _, _ => absurd hx (List.not_mem_nil x)
  | a :: rest, hch, x, hx, y, hy => by
    rcases isAncChain_cons sc a rest hch with ⟨ha, hrest⟩
    rcases List.mem_cons.mp hx with rfl | hxr
    · rw [ha] at hy
      exact List.mem_cons_of_mem _ hy
    · exact List.mem_cons_of_mem _ (chain_anc_sub sc rest hrest x hxr y hy)

theorem chain_depth_lt (sc : StateChart) :
    ∀ (ch : List String), isAncChain sc ch = true →
      ∀ x, x ∈ ch → depth_of sc x < ch.length
  | [], _, x, hx => absurd hx (List.not_mem_nil x)
  | a :: rest, hch, x, hx => by
    rcases isAncChain_cons sc a rest hch with ⟨ha, hrest⟩
    rcases List.mem_cons.mp hx with rfl | hxr
    · have : depth_of sc x = rest.length := by
        show (ancestors_for sc x).length = rest.length
        rw [ha]
      simp [this]
    · have := chain_depth_lt sc rest hrest x hxr
      simp only [List.length_cons]
      omega

theorem chain_pairwise_depth (sc : StateChart) :
    ∀ (ch : List String), isAncChain sc ch = true →
      ch.Pairwise (fun a b => depth_of sc b < depth_of sc a)
  | [], _ => List.Pairwise.nil
  | a :: rest, hch => by
    rcases isAncChain_cons sc a rest hch with ⟨ha, hrest⟩
    refine List.pairwise_cons.mpr ⟨?_, chain_pairwise_depth sc rest hrest⟩
    intro b hb
    have hdb := chain_depth_lt sc rest hrest b hb
    have hda : depth_of sc a = rest.length := by
      show (ancestors_for sc a).length = rest.length
      rw [ha]
    omega

theorem chain_takeWhile_mem (sc : StateChart) (l : String) :
    ∀ (ch : List String), isAncChain sc ch = true → ch.Nodup → l ∈ ch →
      ∀ x : String,
        (x ∈ ch.takeWhile (fun a => decide (¬ some a = some l)) ↔
          (x ∈ ch ∧ l ∈ ancestors_for sc x))
  | [], _, _, hl => absurd hl (List.not_mem_nil l)
  | a :: rest, hch, hnd, hl => by
    intro x
    rcases isAncChain_cons sc a rest hch with ⟨ha, hrest⟩
    rcases List.nodup_cons.mp hnd with ⟨hna, hndr⟩
    by_cases hal : a = l
    · subst hal
      have hpred : (decide (¬ some a = some a)) = false := by simp
      rw [List.takeWhile_cons, hpred]
      simp only [Bool.false_eq_true, if_false, List.not_mem_nil, false_iff]
      rintro ⟨hxm, hlx⟩
      rcases List.mem_cons.mp hxm with rfl | hxr
      · rw [ha] at hlx
        exact hna hlx
      · exact hna (chain_anc_sub sc rest hrest x hxr a hlx)
    · have hlr : l ∈ rest := by
        rcases List.mem_cons.mp hl with h' | h'
        · exact absurd h'.symm hal
        · exact h'
      have hpred : (decide (¬ some a = some l)) = true := by simp [hal]
      rw [List.takeWhile_cons, hpred]
      simp only [if_true, List.mem_cons]
      constructor
      · intro hx
        rcases hx with rfl | hx'
        · exact ⟨Or.inl rfl, by rw [ha]; exact hlr⟩
        · rcases (chain_takeWhile_mem sc l rest hrest hndr hlr x).mp hx' with ⟨hxm, hlx⟩
          exact ⟨Or.inr hxm, hlx⟩
      · rintro ⟨rfl | hx', hlx⟩
        · exact Or.inl rfl
        · exact Or.inr ((chain_takeWhile_mem sc l rest hrest hndr hlr x).mpr ⟨hx', hlx⟩)

/-- Claim C6 (confirmed): for a transition with a target, the computed
micro step exits exactly the currently active descendants of the
source's last ancestor strictly below the least common ancestor of
source and target, plus that ancestor itself when it is active, in an
order of non-increasing depth (deepest first); and it enters exactly the
target's ancestors strictly below that least common ancestor followed by
the target, in strictly increasing depth (shallowest first, target
last).  The ordering facts rely on the tree-shaped hypotheses about the
hierarchy provider, discharged concretely in the witness. -/
theorem transition_step_shape (sc : StateChart) (cfg : List String)
    (event : Option Event) (t : Transition) (tgt l lb : String) (st : MicroStep)
    (ht : t.to_state = some tgt)
    (hL : least_common_ancestor sc t.from_state tgt = some l)
    (hlb : lb = lastBefore sc t.from_state (some l))
    (hst : _compute_transitions_steps sc cfg event [t] = [st])
    (hdesc : (descendants_for sc lb).Pairwise
      (fun a b => depth_of sc a ≤ depth_of sc b))
    (hdeep : ∀ d ∈ descendants_for sc lb, depth_of sc lb < depth_of sc d)
    (hchain : isAncChain sc (ancestors_for sc tgt) = true)
    (hnd : (ancestors_for sc tgt).Nodup)
    (hlmem : l ∈ ancestors_for sc tgt) :
    (∀ x, x ∈ st.exited_states ↔
      (x ∈ cfg ∧ (x ∈ descendants_for sc lb ∨ x = lb))) ∧
    st.exited_states.Pairwise (fun a b => depth_of sc b ≤ depth_of sc a) ∧
    (∀ x, x ∈ st.entered_states ↔
      (x = tgt ∨ (x ∈ ancestors_for sc tgt ∧ l ∈ ancestors_for sc x))) ∧
    st.entered_states.Pairwise (fun a b => depth_of sc a < depth_of sc b) ∧
    st.entered_states.getLast? = some tgt := by
  subst hlb
  simp only [_compute_transitions_steps, List.map_cons, List.map_nil, ht, hL,
    List.cons.injEq, and_true] at hst
  subst hst
  refine ⟨?_, ?_, ?_, ?_, ?_⟩
  · intro x
    show x ∈ ((descendants_for sc
        (lastBefore sc t.from_state (some l))).reverse.filter
          (fun d => decide (d ∈ cfg))) ++
        (if lastBefore sc t.from_state (some l) ∈ cfg then
          [lastBefore sc t.from_state (some l)] else []) ↔ _
    by_cases hin : lastBefore sc t.from_state (some l) ∈ cfg
    · rw [if_pos hin]
      simp only [List.mem_append, List.mem_filter, List.mem_reverse,
        decide_eq_true_eq, List.mem_singleton]
      constructor
      · rintro (⟨hxd, hxc⟩ | rfl)
        · exact ⟨hxc, Or.inl hxd⟩
        · exact ⟨hin, Or.inr rfl⟩
      · rintro ⟨hxc, hxd | rfl⟩
        · exact Or.inl ⟨hxd, hxc⟩
        · exact Or.inr rfl
    · rw [if_neg hin]
      simp only [List.append_nil, List.mem_filter, List.mem_reverse,
        decide_eq_true_eq]
      constructor
      · rintro ⟨hxd, hxc⟩
        exact ⟨hxc, Or.inl hxd⟩
      · rintro ⟨hxc, hxd | rfl⟩
        · exact ⟨hxd, hxc⟩
        · exact absurd hxc hin
  · have h1 : ((descendants_for sc
        (lastBefore sc t.from_state (some l))).reverse).Pairwise
        (fun a b => depth_of sc b ≤ depth_of sc a) :=
      List.pairwise_reverse.mpr hdesc
    have h2 := h1.filter (fun d => decide (d ∈ cfg))
    refine List.pairwise_append.mpr ⟨h2, ?_, ?_⟩
    · by_cases hin : lastBefore sc t.from_state (some l) ∈ cfg
      · rw [if_pos hin]
        exact List.pairwise_singleton _ _
      · rw [if_neg hin]
        exact List.Pairwise.nil
    · intro a ha b hb
      have had : a ∈ descendants_for sc (lastBefore sc t.from_state (some l)) :=
        List.mem_reverse.mp (List.mem_filter.mp ha).1
      have hd := hdeep a had
      by_cases hin : lastBefore sc t.from_state (some l) ∈ cfg
      · rw [if_pos hin] at hb
        have hb' : b = lastBefore sc t.from_state (some l) := List.mem_singleton.mp hb
        subst hb'
        omega
      · rw [if_neg hin] at hb
        exact absurd hb (List.not_mem_nil b)
  · intro x
    simp only [List.mem_append, List.mem_reverse, List.mem_singleton]
    rw [chain_takeWhile_mem sc l (ancestors_for sc tgt) hchain hnd hlmem x]
    tauto
  · have hPW : (ancestors_for sc tgt).Pairwise
        (fun a b => depth_of sc b < depth_of sc a) :=
      chain_pairwise_depth sc _ hchain
    have hsub : ((ancestors_for sc tgt).takeWhile
        (fun a => decide (¬ some a = some l))).Sublist (ancestors_for sc tgt) :=
      List.takeWhile_sublist _
    have htw := hPW.sublist hsub
    have hrev : (((ancestors_for sc tgt).takeWhile
        (fun a => decide (¬ some a = some l))).reverse).Pairwise
        (fun a b => depth_of sc a < depth_of sc b) :=
      List.pairwise_reverse.mpr htw
    refine List.pairwise_append.mpr ⟨hrev, List.pairwise_singleton _ _, ?_⟩
    intro a ha b hb
    have hb' : b = tgt := List.mem_singleton.mp hb
    rw [hb']
    have ham : a ∈ ancestors_for sc tgt :=
      hsub.subset (List.mem_reverse.mp ha)
    exact chain_depth_lt sc (ancestors_for sc tgt) hchain a ham
  · exact List.getLast?_concat _

/-- Claim C6 witness: the step shape theorem applied to transition `trB`
of `chartA` (source `s`, target `t1`, least common ancestor `P`) in the
started configuration. -/
theorem transition_step_shape_witness :
    trB.to_state = some "t1" ∧
    least_common_ancestor chartA trB.from_state "t1" = some "P" ∧
    ("s" : String) = lastBefore chartA trB.from_state (some "P") ∧
    _compute_transitions_steps chartA chartA_started.configuration (some ⟨"e"⟩) [trB] =
      [⟨some ⟨"e"⟩, some trB, ["s", "m", "t1"], ["mA", "m", "s"]⟩] ∧
    ((∀ x, x ∈ (["mA", "m", "s"] : List String) ↔
        (x ∈ chartA_started.configuration ∧
         (x ∈ descendants_for chartA "s" ∨ x = "s"))) ∧
     (["mA", "m", "s"] : List String).Pairwise
       (fun a b => depth_of chartA b ≤ depth_of chartA a) ∧
     (∀ x, x ∈ (["s", "m", "t1"] : List String) ↔
        (x = "t1" ∨ (x ∈ ancestors_for chartA "t1" ∧ "P" ∈ ancestors_for chartA x))) ∧
     (["s", "m", "t1"] : List String).Pairwise
       (fun a b => depth_of chartA a < depth_of chartA b) ∧
     (["s", "m", "t1"] : List String).getLast? = some "t1") :=
  ⟨rfl, (by decide), (by decide), (by decide),
   transition_step_shape chartA chartA_started.configuration (some ⟨"e"⟩) trB
     "t1" "P" "s" ⟨some ⟨"e"⟩, some trB, ["s", "m", "t1"], ["mA", "m", "s"]⟩
     rfl (by decide) (by decide) (by decide) (by decide) (by decide)
     (by decide) (by decide) (by decide)⟩
